import Mathlib

/-!
Verification development for the Ansys renderer module
(`qiskit_metal/renderers/renderer_ansys/ansys_renderer.py`).

The fillet-eligibility computation (`good_fillet_idxs`) is embedded from the
source file.  Its two helpers `toggle_numbers` and `bad_fillet_idxs` live in
`qiskit_metal.toolbox_python.utility_functions`, which is not part of the
sources at hand; they are modelled from the specification (a pairwise
proximity check of each vertex against its neighbours, comparing half the
shorter adjacent edge length, rounded to a fixed number of decimal digits,
with the fillet radius; the bad set is then inverted against the full index
range).  Coordinates and radii are rational, and the rounded half length of
an edge is computed exactly through an integer square root.
-/

/-- Squared euclidean distance between two planar points with rational
coordinates.  The source works with floating point vertex tuples; the
embedding uses exact rationals, and all length comparisons are phrased
through squared distances or the exact rounded length below. -/
def dist2 (a b : ℚ × ℚ) : ℚ :=
  (a.1 - b.1) ^ 2 + (a.2 - b.2) ^ 2

/-- Structurally recursive integer square root: `natSqrtLin n` is the largest
`s` with `s * s ≤ n`.  (A linear-time variant is used so that concrete
witnesses evaluate inside the kernel.) -/
def natSqrtLin : ℕ → ℕ
  | 0 => 0
  | n + 1 =>
    let s := natSqrtLin n
    if (s + 1) * (s + 1) ≤ n + 1 then s + 1 else s

theorem natSqrtLin_spec (n : ℕ) :
    natSqrtLin n * natSqrtLin n ≤ n ∧ n < (natSqrtLin n + 1) * (natSqrtLin n + 1) := by
  induction n with
  | zero => simp [natSqrtLin]
  | succ n ih =>
    have hdef : natSqrtLin (n + 1) =
        if (natSqrtLin n + 1) * (natSqrtLin n + 1) ≤ n + 1 then natSqrtLin n + 1
        else natSqrtLin n := rfl
    rw [hdef]
    by_cases h : (natSqrtLin n + 1) * (natSqrtLin n + 1) ≤ n + 1
    · rw [if_pos h]
      constructor
      · exact h
      · nlinarith [ih.1, ih.2]
    · rw [if_neg h]
      constructor
      · exact Nat.le_succ_of_le ih.1
      · omega

/-- Integer square root of a nonnegative rational: `isqrtQ x = ⌊√x⌋`.
Computed as `⌊√(num · den)⌋ / den` using only natural arithmetic. -/
def isqrtQ (x : ℚ) : ℕ :=
  natSqrtLin (x.num.toNat * x.den) / x.den

theorem isqrtQ_spec (x : ℚ) (hx : 0 ≤ x) :
    ((isqrtQ x : ℚ)) ^ 2 ≤ x ∧ x < ((isqrtQ x : ℚ) + 1) ^ 2 := by
  set a : ℕ := x.num.toNat with ha
  set b : ℕ := x.den with hb
  have hbpos : 0 < b := x.pos
  have hnum : (a : ℤ) = x.num := Int.toNat_of_nonneg (Rat.num_nonneg.mpr hx)
  have hxab : x = (a : ℚ) / (b : ℚ) := by
    rw [← Rat.num_div_den x]
    congr 1
    · exact_mod_cast hnum.symm
  set s : ℕ := natSqrtLin (a * b) with hs
  have hsspec := natSqrtLin_spec (a * b)
  set k : ℕ := s / b with hk
  have hk1 : k * b ≤ s := Nat.div_mul_le_self s b
  have hk2 : s < (k + 1) * b := by
    have h1 : b * k + s % b = s := by rw [hk]; exact Nat.div_add_mod s b
    have h2 : s % b < b := Nat.mod_lt s hbpos
    calc s = b * k + s % b := h1.symm
      _ < b * k + b := by omega
      _ = (k + 1) * b := by ring
  -- the two natural-number inequalities characterising k
  have hlow : k * k * b ≤ a := by
    have h3 : (k * b) * (k * b) ≤ s * s := Nat.mul_le_mul hk1 hk1
    have h4 : (k * k * b) * b ≤ a * b := by
      calc (k * k * b) * b = (k * b) * (k * b) := by ring
        _ ≤ s * s := h3
        _ ≤ a * b := hsspec.1
    exact Nat.le_of_mul_le_mul_right h4 hbpos
  have hhigh : a < (k + 1) * (k + 1) * b := by
    have h3 : s + 1 ≤ (k + 1) * b := hk2
    have h4 : (s + 1) * (s + 1) ≤ ((k + 1) * b) * ((k + 1) * b) :=
      Nat.mul_le_mul h3 h3
    have h5 : a * b < ((k + 1) * (k + 1) * b) * b := by
      calc a * b < (s + 1) * (s + 1) := hsspec.2
        _ ≤ ((k + 1) * b) * ((k + 1) * b) := h4
        _ = ((k + 1) * (k + 1) * b) * b := by ring
    exact Nat.lt_of_mul_lt_mul_right h5
  have hkiq : isqrtQ x = k := by
    simp only [isqrtQ, ← ha, ← hb, ← hs, ← hk]
  rw [hkiq, hxab]
  have hbq : (0 : ℚ) < (b : ℚ) := by exact_mod_cast hbpos
  constructor
  · rw [le_div_iff₀ hbq]
    have : ((k * k * b : ℕ) : ℚ) ≤ ((a : ℕ) : ℚ) := by exact_mod_cast hlow
    push_cast at this
    nlinarith [this]
  · rw [div_lt_iff₀ hbq]
    have : ((a : ℕ) : ℚ) < ((k + 1) * (k + 1) * b : ℕ) := by exact_mod_cast hhigh
    push_cast at this
    nlinarith [this]

/-- Half the length of an edge of squared length `d2v`, rounded (half up) to
`prec` decimal digits: the exact value of `round(sqrt(d2v)/2, prec)`.
Writing `m = ⌊√(d2v)·10^prec⌋`, the rounded value is `⌈m/2⌉ / 10^prec`. -/
def roundHalfLen (prec : ℕ) (d2v : ℚ) : ℚ :=
  (((isqrtQ (d2v * 10 ^ (2 * prec)) + 1) / 2 : ℕ) : ℚ) / 10 ^ prec

theorem roundHalfLen_ge (prec : ℕ) (s r : ℚ) (hr : 0 ≤ r)
    (h : 2 * r + 1 / 10 ^ prec ≤ s) : r < roundHalfLen prec (s ^ 2) := by
  set P : ℚ := 10 ^ prec with hP
  have hPpos : (0 : ℚ) < P := by positivity
  have hspos : 0 < s := by
    have : (0 : ℚ) < 1 / P := by positivity
    nlinarith
  have hQ : s ^ 2 * 10 ^ (2 * prec) = (s * P) ^ 2 := by
    rw [mul_pow, hP, ← pow_mul, mul_comm prec 2]
  have hQ0 : (0 : ℚ) ≤ s ^ 2 * 10 ^ (2 * prec) := by positivity
  set m : ℕ := isqrtQ (s ^ 2 * 10 ^ (2 * prec)) with hm
  have hspec := isqrtQ_spec (s ^ 2 * 10 ^ (2 * prec)) hQ0
  have hsP : 0 ≤ s * P := by positivity
  have hup : s * P < (m : ℚ) + 1 := by
    have h2 : (s * P) ^ 2 < ((m : ℚ) + 1) ^ 2 := by rw [← hQ]; exact hspec.2
    nlinarith
  have hmgt : 2 * r * P < (m : ℚ) := by
    have h3 : (2 * r + 1 / P) * P ≤ s * P := by
      exact mul_le_mul_of_nonneg_right h (le_of_lt hPpos)
    have h4 : (2 * r + 1 / P) * P = 2 * r * P + 1 := by
      field_simp
    nlinarith
  set v : ℕ := (m + 1) / 2 with hv
  have hv2 : m ≤ 2 * v := by omega
  have hv2q : (m : ℚ) ≤ 2 * (v : ℚ) := by exact_mod_cast hv2
  have hvP : r * P < (v : ℚ) := by nlinarith
  show r < (v : ℚ) / P
  rw [lt_div_iff₀ hPpos]
  exact hvP

theorem roundHalfLen_lt (prec : ℕ) (d2v r : ℚ) (hd2 : 0 ≤ d2v)
    (hq : 1 / 10 ^ prec ≤ 2 * r)
    (h : d2v < (2 * r - 1 / 10 ^ prec) ^ 2) : roundHalfLen prec d2v < r := by
  set P : ℚ := 10 ^ prec with hP
  have hPpos : (0 : ℚ) < P := by positivity
  have hQ0 : (0 : ℚ) ≤ d2v * 10 ^ (2 * prec) := by positivity
  set m : ℕ := isqrtQ (d2v * 10 ^ (2 * prec)) with hm
  have hspec := isqrtQ_spec (d2v * 10 ^ (2 * prec)) hQ0
  have hPP : (10 : ℚ) ^ (2 * prec) = P ^ 2 := by
    rw [hP, ← pow_mul, mul_comm prec 2]
  have hc : (2 * r - 1 / P) * P = 2 * r * P - 1 := by field_simp
  have hQlt : d2v * 10 ^ (2 * prec) < (2 * r * P - 1) ^ 2 := by
    have h2 : d2v * P ^ 2 < ((2 * r - 1 / P) * P) ^ 2 := by
      rw [mul_pow]
      have hP2 : (0 : ℚ) < P ^ 2 := by positivity
      exact mul_lt_mul_of_pos_right h hP2
    rw [hPP]
    rw [hc] at h2
    exact h2
  have hrP1 : (0 : ℚ) ≤ 2 * r * P - 1 := by
    have : 1 / P * P ≤ 2 * r * P := mul_le_mul_of_nonneg_right hq (le_of_lt hPpos)
    have h1 : 1 / P * P = 1 := by field_simp
    nlinarith
  have hmlt : (m : ℚ) < 2 * r * P - 1 := by
    have h2 : ((m : ℚ)) ^ 2 < (2 * r * P - 1) ^ 2 := lt_of_le_of_lt hspec.1 hQlt
    have hm0 : (0 : ℚ) ≤ (m : ℚ) := by positivity
    nlinarith
  set v : ℕ := (m + 1) / 2 with hv
  have hv2 : 2 * v ≤ m + 1 := by omega
  have hv2q : 2 * (v : ℚ) ≤ (m : ℚ) + 1 := by exact_mod_cast hv2
  have hvP : (v : ℚ) < r * P := by nlinarith
  show (v : ℚ) / P < r
  rw [div_lt_iff₀ hPpos]
  exact hvP

/-- Proximity check of one vertex `m` against its neighbours `p` and `n`:
the vertex is bad when half the length of the shorter adjacent edge, rounded
to `precision` decimal digits, is smaller than the fillet radius. -/
def badAt (fradius : ℚ) (precision : ℕ) (p m n : ℚ × ℚ) : Bool :=
  decide (roundHalfLen precision (min (dist2 m p) (dist2 n m)) < fradius)

/-- Modelled from the spec: `bad_fillet_idxs` of
`qiskit_metal.toolbox_python.utility_functions` (imported by the renderer but
not among the sources).  Per the spec it is a "pairwise proximity check
against neighbors within rounding precision": a vertex is bad when its two
adjacent edge segments are not long enough relative to the radius.  For a
closed polygon every vertex has two neighbours (indices wrap around); for an
open polyline only the interior vertices `1 .. len-2` have two neighbours and
are checked. -/
def bad_fillet_idxs (coords : List (ℚ × ℚ)) (fradius : ℚ) (precision : ℕ)
    (isclosed : Bool) : List ℕ :=
  let n := coords.length
  match isclosed with
  | true =>
    (List.range n).filter (fun i =>
      badAt fradius precision (coords.getD ((i + n - 1) % n) (0, 0))
        (coords.getD i (0, 0)) (coords.getD ((i + 1) % n) (0, 0)))
  | false =>
    ((List.range (n - 2)).map (· + 1)).filter (fun i =>
      badAt fradius precision (coords.getD (i - 1) (0, 0))
        (coords.getD i (0, 0)) (coords.getD (i + 1) (0, 0)))

/-- Modelled from the spec: `toggle_numbers` of
`qiskit_metal.toolbox_python.utility_functions` (imported by the renderer but
not among the sources).  The spec: the set of bad indices is "inverted
against the full index range to get good indices". -/
def toggle_numbers (numbers : List ℕ) (totlen : ℕ) : List ℕ :=
  (List.range totlen).filter (fun i => decide (i ∉ numbers))

/-- Embeds `good_fillet_idxs` of the renderer source: invert the bad indices
against the full index range; for an open polyline additionally slice off the
first and last entry of the inverted list (Python `[1:-1]`). -/
def good_fillet_idxs (coords : List (ℚ × ℚ)) (fradius : ℚ) (precision : ℕ)
    (isclosed : Bool) : List ℕ :=
  match isclosed with
  | true => toggle_numbers (bad_fillet_idxs coords fradius precision true) coords.length
  | false =>
    (((toggle_numbers (bad_fillet_idxs coords fradius precision false)
        coords.length).drop 1).dropLast)

theorem mem_toggle_numbers {numbers : List ℕ} {totlen i : ℕ} :
    i ∈ toggle_numbers numbers totlen ↔ i < totlen ∧ i ∉ numbers := by
  simp [toggle_numbers]

theorem mem_bad_open {coords : List (ℚ × ℚ)} {fradius : ℚ} {precision i : ℕ} :
    i ∈ bad_fillet_idxs coords fradius precision false ↔
      1 ≤ i ∧ i + 1 < coords.length ∧
        badAt fradius precision (coords.getD (i - 1) (0, 0))
          (coords.getD i (0, 0)) (coords.getD (i + 1) (0, 0)) = true := by
  simp only [bad_fillet_idxs, List.mem_filter, List.mem_map, List.mem_range]
  constructor
  · rintro ⟨⟨j, hj, rfl⟩, hb⟩
    exact ⟨by omega, by omega, hb⟩
  · rintro ⟨h1, h2, hb⟩
    exact ⟨⟨i - 1, by omega, by omega⟩, hb⟩

theorem mem_bad_closed {coords : List (ℚ × ℚ)} {fradius : ℚ} {precision i : ℕ} :
    i ∈ bad_fillet_idxs coords fradius precision true ↔
      i < coords.length ∧
        badAt fradius precision
          (coords.getD ((i + coords.length - 1) % coords.length) (0, 0))
          (coords.getD i (0, 0))
          (coords.getD ((i + 1) % coords.length) (0, 0)) = true := by
  simp [bad_fillet_idxs]

theorem toggle_trim_mem (B : List ℕ) (n i : ℕ)
    (hB : ∀ x ∈ B, 1 ≤ x ∧ x + 1 < n) :
    i ∈ ((toggle_numbers B n).drop 1).dropLast ↔
      1 ≤ i ∧ i + 1 < n ∧ i ∉ B := by
  match n with
  | 0 =>
    simp [toggle_numbers]
  | 1 =>
    have h0 : 0 ∉ B := fun h => by have := hB 0 h; omega
    simp [toggle_numbers, List.range_succ, h0]
  | (m + 2) =>
    have h0 : 0 ∉ B := fun h => by have := hB 0 h; omega
    have hl : (m + 1) ∉ B := fun h => by have := hB _ h; omega
    have hrange : List.range (m + 2) =
        0 :: ((List.range m).map (· + 1) ++ [m + 1]) := by
      rw [List.range_succ_eq_map, List.range_succ, List.map_append]
      simp [Nat.succ_eq_add_one]
    have htog : toggle_numbers B (m + 2) =
        0 :: (((List.range m).map (· + 1)).filter (fun i => decide (i ∉ B))
          ++ [m + 1]) := by
      rw [toggle_numbers, hrange]
      rw [List.filter_cons, List.filter_append]
      simp [h0, hl]
    rw [htog]
    simp only [List.drop_succ_cons, List.drop_zero, List.dropLast_concat,
      List.mem_filter, List.mem_map, List.mem_range]
    constructor
    · rintro ⟨⟨j, hj, rfl⟩, hb⟩
      simp only [decide_eq_true_eq] at hb
      exact ⟨by omega, by omega, hb⟩
    · rintro ⟨h1, h2, hb⟩
      exact ⟨⟨i - 1, by omega, by omega⟩, by simpa using hb⟩

theorem mem_good_open {coords : List (ℚ × ℚ)} {fradius : ℚ} {precision i : ℕ} :
    i ∈ good_fillet_idxs coords fradius precision false ↔
      1 ≤ i ∧ i + 1 < coords.length ∧
        i ∉ bad_fillet_idxs coords fradius precision false := by
  have hB : ∀ x ∈ bad_fillet_idxs coords fradius precision false,
      1 ≤ x ∧ x + 1 < coords.length := by
    intro x hx
    rw [mem_bad_open] at hx
    exact ⟨hx.1, hx.2.1⟩
  exact toggle_trim_mem _ coords.length i hB

/-- C1: for every open polyline, every fillet radius and every precision, the
list returned by `good_fillet_idxs` contains neither index `0` nor the last
index `len(coords) - 1`. -/
theorem good_fillet_idxs_open_excludes_endpoints
    (coords : List (ℚ × ℚ)) (fradius : ℚ) (precision : ℕ) :
    0 ∉ good_fillet_idxs coords fradius precision false ∧
      coords.length - 1 ∉ good_fillet_idxs coords fradius precision false := by
  constructor
  · intro h
    rw [mem_good_open] at h
    omega
  · intro h
    rw [mem_good_open] at h
    omega

/-- C2: for every vertex list, radius, precision and closed flag, the indices
returned by `good_fillet_idxs` are exactly the complement (within the full
index range) of the bad indices computed by `bad_fillet_idxs`, with the two
endpoint indices additionally removed for open shapes only. -/
theorem good_fillet_idxs_eq_complement
    (coords : List (ℚ × ℚ)) (fradius : ℚ) (precision : ℕ) (isclosed : Bool)
    (i : ℕ) :
    i ∈ good_fillet_idxs coords fradius precision isclosed ↔
      (i ∈ toggle_numbers (bad_fillet_idxs coords fradius precision isclosed)
          coords.length ∧
        (isclosed = false → i ≠ 0 ∧ i ≠ coords.length - 1)) := by
  cases isclosed
  · rw [mem_good_open, mem_toggle_numbers]
    constructor
    · rintro ⟨h1, h2, h3⟩
      exact ⟨⟨by omega, h3⟩, fun _ => ⟨by omega, by omega⟩⟩
    · rintro ⟨⟨hlt, hnb⟩, himp⟩
      obtain ⟨hne0, hnel⟩ := himp rfl
      exact ⟨by omega, by omega, hnb⟩
  · simp [good_fillet_idxs]

theorem dist2_nonneg (a b : ℚ × ℚ) : 0 ≤ dist2 a b := by
  unfold dist2
  positivity

/-- The squared length of the shorter edge adjacent to vertex `i`, exactly as
the proximity check of `bad_fillet_idxs` computes it (0 for the endpoints of
an open polyline, which have no two adjacent edges and are never checked). -/
def adjMinD2 (coords : List (ℚ × ℚ)) (isclosed : Bool) (i : ℕ) : ℚ :=
  let n := coords.length
  match isclosed with
  | true =>
    min (dist2 (coords.getD i (0, 0)) (coords.getD ((i + n - 1) % n) (0, 0)))
      (dist2 (coords.getD ((i + 1) % n) (0, 0)) (coords.getD i (0, 0)))
  | false =>
    if 1 ≤ i ∧ i + 1 < n then
      min (dist2 (coords.getD i (0, 0)) (coords.getD (i - 1) (0, 0)))
        (dist2 (coords.getD (i + 1) (0, 0)) (coords.getD i (0, 0)))
    else 0

/-- C5: for the closed axis-aligned square with corners `(0,0), (s,0), (s,s),
(0,s)`, when the side exceeds twice the fillet radius by at least one
rounding quantum (the precise reading of "side length much larger than twice
the fillet radius"), no vertex is marked bad and `good_fillet_idxs` returns
the full index range. -/
theorem good_fillet_idxs_closed_square_full (s fradius : ℚ) (precision : ℕ)
    (hr : 0 ≤ fradius) (hs : 2 * fradius + 1 / 10 ^ precision ≤ s) :
    good_fillet_idxs [(0, 0), (s, 0), (s, s), (0, s)] fradius precision true =
      [0, 1, 2, 3] := by
  have key : ∀ p m n : ℚ × ℚ, dist2 m p = s ^ 2 → dist2 n m = s ^ 2 →
      badAt fradius precision p m n = false := by
    intro p m n h1 h2
    simp only [badAt, h1, h2, min_self, decide_eq_false_iff_not, not_lt]
    exact le_of_lt (roundHalfLen_ge precision s fradius hr hs)
  have e0 : badAt fradius precision (0, s) 0 (s, 0) = false :=
    key _ _ _ (by simp [dist2]; try ring) (by simp [dist2]; try ring)
  have e1 : badAt fradius precision 0 (s, 0) (s, s) = false :=
    key _ _ _ (by simp [dist2]; try ring) (by simp [dist2]; try ring)
  have e2 : badAt fradius precision (s, 0) (s, s) (0, s) = false :=
    key _ _ _ (by simp [dist2]; try ring) (by simp [dist2]; try ring)
  have e3 : badAt fradius precision (s, s) (0, s) 0 = false :=
    key _ _ _ (by simp [dist2]; try ring) (by simp [dist2]; try ring)
  have hbad : bad_fillet_idxs [(0, 0), (s, 0), (s, s), (0, s)] fradius
      precision true = [] := by
    simp only [bad_fillet_idxs, List.length_cons, List.length_nil]
    norm_num [List.range_succ]
    simp [List.filter_cons, e0, e1, e2, e3]
  show toggle_numbers
      (bad_fillet_idxs [(0, 0), (s, 0), (s, s), (0, s)] fradius precision true)
      ([(0, 0), (s, 0), (s, s), (0, s)] : List (ℚ × ℚ)).length = [0, 1, 2, 3]
  rw [hbad, show ([(0, 0), (s, 0), (s, s), (0, s)] : List (ℚ × ℚ)).length = 4
    from rfl]
  with_unfolding_all decide

theorem good_fillet_idxs_closed_square_full_witness :
    good_fillet_idxs [((0 : ℚ), (0 : ℚ)), (3, 0), (3, 3), (0, 3)] 1 0 true =
      [0, 1, 2, 3] :=
  good_fillet_idxs_closed_square_full 3 1 0 (by norm_num) (by norm_num)

/-- C6 refuted at a concrete input: with `coords = [(0,0),(1,0),(2,0)]`,
`fradius = 3/5` and `precision = 0`, the fillet radius exceeds half the
length of the shorter edge adjacent to vertex 1 (both adjacent edges have
length 1, and `3/5 > 1/2`, stated below in squared form as
`adjMinD2 < (2·fradius)²`), yet vertex 1 is NOT excluded: it appears in
`good_fillet_idxs`.  The coarse rounding (`round(1/2, 0) = 1 ≥ 3/5`) makes
the proximity check pass. -/
theorem good_fillet_idxs_large_radius_counterexample :
    adjMinD2 [((0 : ℚ), (0 : ℚ)), (1, 0), (2, 0)] false 1 < (2 * (3/5 : ℚ)) ^ 2 ∧
      1 ∈ good_fillet_idxs [((0 : ℚ), (0 : ℚ)), (1, 0), (2, 0)] (3/5) 0 false := by
  with_unfolding_all decide

/-- C6 (amended): if the fillet radius exceeds half the length of the
shortest edge adjacent to vertex `i` by more than half a rounding quantum
(stated exactly in squared form: `adjMinD2 < (2·fradius - 10^(-precision))²`
with `10^(-precision) ≤ 2·fradius`), then vertex `i` is excluded from the
list returned by `good_fillet_idxs`. -/
theorem good_fillet_idxs_large_radius_excluded
    (coords : List (ℚ × ℚ)) (fradius : ℚ) (precision : ℕ) (isclosed : Bool)
    (i : ℕ) (hi : i < coords.length)
    (hq : 1 / 10 ^ precision ≤ 2 * fradius)
    (hd : adjMinD2 coords isclosed i < (2 * fradius - 1 / 10 ^ precision) ^ 2) :
    i ∉ good_fillet_idxs coords fradius precision isclosed := by
  cases isclosed
  · intro h
    rw [mem_good_open] at h
    obtain ⟨h1, h2, h3⟩ := h
    apply h3
    rw [mem_bad_open]
    refine ⟨h1, h2, ?_⟩
    simp only [adjMinD2] at hd
    rw [if_pos ⟨h1, h2⟩] at hd
    simp only [badAt, decide_eq_true_eq]
    have hnn : 0 ≤ min (dist2 (coords.getD i (0, 0)) (coords.getD (i - 1) (0, 0)))
        (dist2 (coords.getD (i + 1) (0, 0)) (coords.getD i (0, 0))) :=
      le_min (dist2_nonneg _ _) (dist2_nonneg _ _)
    exact roundHalfLen_lt precision _ fradius hnn hq hd
  · intro h
    simp only [good_fillet_idxs] at h
    rw [mem_toggle_numbers] at h
    apply h.2
    rw [mem_bad_closed]
    refine ⟨hi, ?_⟩
    simp only [adjMinD2] at hd
    simp only [badAt, decide_eq_true_eq]
    have hnn : 0 ≤ min
        (dist2 (coords.getD i (0, 0))
          (coords.getD ((i + coords.length - 1) % coords.length) (0, 0)))
        (dist2 (coords.getD ((i + 1) % coords.length) (0, 0))
          (coords.getD i (0, 0))) :=
      le_min (dist2_nonneg _ _) (dist2_nonneg _ _)
    exact roundHalfLen_lt precision _ fradius hnn hq hd

theorem good_fillet_idxs_large_radius_excluded_witness :
    1 ∉ good_fillet_idxs [((0 : ℚ), (0 : ℚ)), (1, 0), (5, 0)] 2 0 false :=
  good_fillet_idxs_large_radius_excluded
    [((0 : ℚ), (0 : ℚ)), (1, 0), (5, 0)] 2 0 false 1
    (by norm_num) (by norm_num) (by with_unfolding_all decide)

/-- Character class of the first regex of `get_clean_name`:
`[0-9a-zA-Z_]` (the characters that survive the removal pass). -/
def isWordChar (c : Char) : Bool :=
  c.isAlphanum || c = '_'

/-- Character class of the second regex of `get_clean_name`: a valid leading
character, `[a-zA-Z_]`. -/
def isLeadChar (c : Char) : Bool :=
  c.isAlpha || c = '_'

/-- Embeds `get_clean_name` of the renderer source: first remove every
character outside `[0-9a-zA-Z_]` (`re.sub('[^0-9a-zA-Z_]', '', name)`), then
remove the maximal leading run of characters outside `[a-zA-Z_]`
(`re.sub('^[^a-zA-Z_]+', '', name)`). -/
def get_clean_name (name : String) : String :=
  ⟨(name.data.filter isWordChar).dropWhile (fun c => !(isLeadChar c))⟩

theorem head_dropWhile_false {p : Char → Bool} :
    ∀ (l : List Char) (c : Char), (l.dropWhile p).head? = some c → p c = false := by
  intro l
  induction l with
  | nil => intro c h; simp [List.dropWhile] at h
  | cons a t ih =>
    intro c h
    rw [List.dropWhile_cons] at h
    by_cases hp : p a = true
    · rw [if_pos hp] at h
      exact ih c h
    · rw [if_neg hp] at h
      simp only [List.head?_cons, Option.some.injEq] at h
      subst h
      exact Bool.not_eq_true _ |>.mp hp

/-- C8: for every input string, `get_clean_name` returns a string made only
of letters, digits and underscores whose first character, when the result is
nonempty, is a letter or an underscore; and every string already of that form
is returned unchanged. -/
theorem get_clean_name_spec (s : String) :
    (∀ c ∈ (get_clean_name s).data, isWordChar c = true) ∧
      (∀ c, (get_clean_name s).data.head? = some c → isLeadChar c = true) ∧
      ((∀ c ∈ s.data, isWordChar c = true) →
        (∀ c, s.data.head? = some c → isLeadChar c = true) →
        get_clean_name s = s) := by
  refine ⟨?_, ?_, ?_⟩
  · intro c hc
    have hsub : ((s.data.filter isWordChar).dropWhile
        (fun c => !(isLeadChar c))).Sublist (s.data.filter isWordChar) :=
      List.dropWhile_sublist _
    have : c ∈ s.data.filter isWordChar := hsub.mem hc
    exact (List.mem_filter.mp this).2
  · intro c hc
    have := head_dropWhile_false (p := fun c => !(isLeadChar c)) _ c hc
    simpa using this
  · intro hword hlead
    have hfil : s.data.filter isWordChar = s.data := List.filter_eq_self.mpr hword
    cases s with
    | mk l =>
      simp only [get_clean_name]
      rw [hfil]
      cases l with
      | nil => rfl
      | cons a t =>
        have ha : isLeadChar a = true := hlead a rfl
        rw [List.dropWhile_cons]
        simp [ha]

theorem get_clean_name_spec_witness : get_clean_name "ab_1" = "ab_1" :=
  (get_clean_name_spec "ab_1").2.2 (by decide) (by decide)

/-- A 3-D point handed to the modeler. -/
abbrev Vec3 := ℚ × ℚ × ℚ

/-- Geometry carried by a table row.  `render_element` dispatches on whether
the shapely object is a `Polygon` (exterior ring plus interior rings), a
`LineString` (coordinate sequence), or anything else. -/
inductive Geom where
  | poly (exterior : List (ℚ × ℚ)) (interiors : List (List (ℚ × ℚ)))
  | path (coords : List (ℚ × ℚ))
  | other
deriving DecidableEq

/-- Exterior and interior rings of a polygon row (shapely
`geometry.exterior.coords` / `geometry.interiors`). -/
def Geom.extData : Geom → List (ℚ × ℚ) × List (List (ℚ × ℚ))
  | Geom.poly e i => (e, i)
  | _ => ([], [])

/-- Coordinate sequence of a linestring row (shapely `geometry.coords`). -/
def Geom.pathCoords : Geom → List (ℚ × ℚ)
  | Geom.path c => c
  | _ => []

/-- One row of a QGeometry element table: the per-row fields the renderer
reads (component id, element name, geometry, chip, fillet radius, width,
subtract flag, helper flag). -/
structure QGeomRow where
  component : ℤ
  name : String
  geometry : Geom
  chip : String
  fillet : ℚ
  width : ℚ
  subtract : Bool
  helper : Bool

/-- Chip dimensions returned by `design.get_chip_size`. -/
structure ChipSize where
  center_x : ℚ
  center_y : ℚ
  center_z : ℚ
  size_x : ℚ
  size_y : ℚ
  size_z : ℚ
  sample_holder_top : ℚ
  sample_holder_bottom : ℚ

/-- The slice of the `QDesign` object the renderer consults (tables of the
geometry database, selection resolution, chip data, template precision).
These live outside the rendered module and are kept abstract. -/
structure Design where
  element_types : List String
  tables : String → List QGeomRow
  get_unique_component_ids : List String → List ℤ × ℕ
  get_chip_z : String → ℚ
  get_chip_size : String → ChipSize
  precision : ℕ

/-- External helper functions the renderer calls: `parse_units` (pyEPR unit
conversion, applied scalar-wise), `is_rectangle` and `to_vec3D`
(`qiskit_metal.draw`), shapely `bounds`, and the sweep-line endpoints of
`render_element_path` (whose in-source computation involves a floating-point
square root and is therefore abstracted as a function of the path points and
the width). -/
structure Env where
  parse_units : ℚ → ℚ
  is_rectangle : List (ℚ × ℚ) → Bool
  bounds : List (ℚ × ℚ) → ℚ × ℚ × ℚ × ℚ
  to_vec3D : List (ℚ × ℚ) → ℚ → List Vec3
  sweep_pts : List (ℚ × ℚ) → ℚ → List Vec3

/-- One call issued on the external CAD modeler handle, with the payloads
the claims depend on (cosmetic keyword arguments such as transparency,
material and color are not recorded; the unnamed freshly drawn interior
object passed to `subtract` is recorded as the placeholder `"<interior>"`). -/
inductive MCall where
  | draw_rect_corner (origin : Vec3) (dx dy dz : ℚ)
  | rename_obj (nm : String)
  | draw_polyline (points : List Vec3) (closed : Bool)
  | rename (nm : String)
  | fillet (radius : ℚ) (idxs : List ℕ)
  | subtract (target : String) (shapes : List String)
  | sweep_along_path
  | draw_box_center (pos : List ℚ) (sz : List ℚ) (nm : String)
  | draw_rect_center (origin : List ℚ) (x_size y_size : ℚ) (nm : String)
  | assign_perfect_E (names : List String)
deriving DecidableEq

/-- The renderer's mutable accumulators: `chip_subtract_dict` (an
insertion-ordered mapping from chip name to the set of shape names to
subtract, the set modelled as an insertion-ordered duplicate-free list) and
`assign_perfE` (the list of shape names to metallize). -/
structure RState where
  chip_subtract_dict : List (String × List String)
  assign_perfE : List String
deriving DecidableEq

/-- Python `if qgeom.chip not in self.chip_subtract_dict:
self.chip_subtract_dict[qgeom.chip] = set()`. -/
def ensureChip (dict : List (String × List String)) (chip : String) :
    List (String × List String) :=
  if dict.any (fun e => decide (e.1 = chip)) then dict else dict ++ [(chip, [])]

/-- Python `self.chip_subtract_dict[qgeom.chip].add(name)`. -/
def addShape (dict : List (String × List String)) (chip nm : String) :
    List (String × List String) :=
  dict.map (fun e =>
    if e.1 = chip then (e.1, if nm ∈ e.2 then e.2 else e.2 ++ [nm]) else e)

/-- `parse_units` applied to a 2-D point. -/
def pu2 (env : Env) (p : ℚ × ℚ) : ℚ × ℚ :=
  (env.parse_units p.1, env.parse_units p.2)

/-- Python `round(qgeom.fillet, 7)` (modelled with round-half-up on exact
rationals). -/
def round7 (x : ℚ) : ℚ :=
  (round (x * 10 ^ 7) : ℤ) / 10 ^ 7

/-- Embeds `QAnsysRenderer.render_element_poly`: draw the exterior (as a
rectangle or a closed polyline) and rename it, fillet the eligible vertices
when the rounded fillet radius is positive and some vertex is eligible,
draw and subtract the interior rings, then record the shape in
`chip_subtract_dict` (when `subtract` is set) and in `assign_perfE` (when
neither `subtract` nor `helper` is set). -/
def render_element_poly (env : Env) (d : Design) (q : QGeomRow) (s : RState) :
    RState × List MCall :=
  let qc_name := "Q" ++ toString q.component
  let qc_elt := get_clean_name q.name
  let ext := (Geom.extData q.geometry).1
  let ints := (Geom.extData q.geometry).2
  let qc_chip_z := env.parse_units (d.get_chip_z q.chip)
  let qc_fillet := round7 q.fillet
  let nm := qc_name ++ "_" ++ qc_elt
  let points := ext.map (pu2 env)
  let points_3d := env.to_vec3D points qc_chip_z
  let drawCalls :=
    if env.is_rectangle ext then
      let b := env.bounds ext
      [MCall.draw_rect_corner
          (env.parse_units b.1, env.parse_units b.2.1, env.parse_units qc_chip_z)
          (env.parse_units (b.2.2.1 - b.1)) (env.parse_units (b.2.2.2 - b.2.1))
          (env.parse_units qc_chip_z),
        MCall.rename_obj nm]
    else
      [MCall.draw_polyline points_3d.dropLast true, MCall.rename nm]
  let filletCalls :=
    if 0 < qc_fillet then
      let fr := env.parse_units qc_fillet
      let idxs := good_fillet_idxs points fr d.precision true
      if idxs.isEmpty then [] else [MCall.fillet fr idxs]
    else []
  let interiorCalls := ints.flatMap (fun x =>
    [MCall.draw_polyline
        ((env.to_vec3D (x.map (pu2 env)) qc_chip_z).dropLast) true,
      MCall.subtract nm ["<interior>"]])
  let dict1 := ensureChip s.chip_subtract_dict q.chip
  let dict2 := if q.subtract then addShape dict1 q.chip nm else dict1
  let perfE :=
    if q.subtract = false ∧ q.helper = false then s.assign_perfE ++ [nm]
    else s.assign_perfE
  (⟨dict2, perfE⟩, drawCalls ++ filletCalls ++ interiorCalls)

/-- Embeds `QAnsysRenderer.render_element_path`: draw the open polyline and
rename it, fillet the eligible vertices when the rounded fillet radius is
positive and some vertex is eligible, sweep a short line along the path when
the parsed width is nonzero, then record the shape in `chip_subtract_dict`
(when `subtract` is set) and in `assign_perfE` (when the raw width is
nonzero and neither `subtract` nor `helper` is set). -/
def render_element_path (env : Env) (d : Design) (q : QGeomRow) (s : RState) :
    RState × List MCall :=
  let qc_name := "Q" ++ toString q.component
  let qc_elt := get_clean_name q.name
  let qcoords := Geom.pathCoords q.geometry
  let qc_chip_z := env.parse_units (d.get_chip_z q.chip)
  let qc_fillet := round7 q.fillet
  let nm := qc_name ++ "_" ++ qc_elt
  let qc_width := env.parse_units q.width
  let points := qcoords.map (pu2 env)
  let points_3d := env.to_vec3D points qc_chip_z
  let drawCalls := [MCall.draw_polyline points_3d false, MCall.rename nm]
  let filletCalls :=
    if 0 < qc_fillet then
      let fr := env.parse_units qc_fillet
      let idxs := good_fillet_idxs points fr d.precision false
      if idxs.isEmpty then [] else [MCall.fillet fr idxs]
    else []
  let sweepCalls :=
    if qc_width ≠ 0 then
      [MCall.draw_polyline (env.sweep_pts points qc_width) false,
        MCall.sweep_along_path]
    else []
  let dict1 := ensureChip s.chip_subtract_dict q.chip
  let dict2 := if q.subtract then addShape dict1 q.chip nm else dict1
  let perfE :=
    if q.width ≠ 0 ∧ q.subtract = false ∧ q.helper = false then
      s.assign_perfE ++ [nm]
    else s.assign_perfE
  (⟨dict2, perfE⟩, drawCalls ++ filletCalls ++ sweepCalls)

/-- Embeds `QAnsysRenderer.render_element`: dispatch on the geometry type
(`Polygon`, `LineString`, anything else falls through without effect). -/
def render_element (env : Env) (d : Design) (q : QGeomRow) (s : RState) :
    RState × List MCall :=
  match q.geometry with
  | Geom.poly _ _ => render_element_poly env d q s
  | Geom.path _ => render_element_path env d q s
  | Geom.other => (s, [])

/-- Sequential iteration of a rendering step over a list, threading the
accumulator state and concatenating the emitted modeler calls. -/
def runList {α : Type} (f : α → RState → RState × List MCall) :
    List α → RState → RState × List MCall
  | [], s => (s, [])
  | x :: xs, s =>
    let r1 := f x s
    let r2 := runList f xs r1.1
    (r2.1, r1.2 ++ r2.2)

/-- The rows `render_components` iterates over: the table of the given type,
masked by the resolved component ids when a selection is given and the
resolution case differs from 1. -/
def rowsOf (d : Design) (table_type : String) (selection : List String) :
    List QGeomRow :=
  let table := d.tables table_type
  match selection with
  | [] => table
  | _ =>
    let p := d.get_unique_component_ids selection
    if p.2 ≠ 1 then table.filter (fun r => decide (r.component ∈ p.1))
    else table

/-- Embeds `QAnsysRenderer.render_components`. -/
def render_components (env : Env) (d : Design) (table_type : String)
    (selection : List String) (s : RState) : RState × List MCall :=
  runList (render_element env d) (rowsOf d table_type selection) s

/-- Embeds `QAnsysRenderer.render_tables`: render the components of every
element table type. -/
def render_tables (env : Env) (d : Design) (selection : List String)
    (s : RState) : RState × List MCall :=
  runList (fun tt s => render_components env d tt selection s)
    d.element_types s

/-- One iteration of the `render_chips` loop: draw the vacuum box (chip
`"main"` only), the chip plane, mark the plane for metallization when the
chip has shapes to subtract, and draw the wafer box. -/
def render_chip (env : Env) (d : Design) (entry : String × List String)
    (s : RState) : RState × List MCall :=
  let chip_name := entry.1
  let p := d.get_chip_size chip_name
  let ox := env.parse_units p.center_x
  let oy := env.parse_units p.center_y
  let oz := env.parse_units p.center_z
  let sx := env.parse_units p.size_x
  let sy := env.parse_units p.size_y
  let sz := env.parse_units p.size_z
  let vt := env.parse_units p.sample_holder_top
  let vb := env.parse_units p.sample_holder_bottom
  let vacCalls :=
    if chip_name = "main" then
      [MCall.draw_box_center [ox, oy, (vt - vb) / 2] [sx, sy, vt + vb]
        "sample_holder"]
    else []
  let planeCalls :=
    [MCall.draw_rect_center [ox, oy, oz] sx sy (chip_name ++ "_plane")]
  let perfE :=
    if entry.2.isEmpty then s.assign_perfE
    else s.assign_perfE ++ [chip_name ++ "_plane"]
  let chipCalls :=
    [MCall.draw_box_center [ox, oy, sz / 2] [sx, sy, -sz] chip_name]
  (⟨s.chip_subtract_dict, perfE⟩, vacCalls ++ planeCalls ++ chipCalls)

/-- Embeds `QAnsysRenderer.render_chips`: iterate over the recorded chips in
insertion order. -/
def render_chips (env : Env) (d : Design) (s : RState) : RState × List MCall :=
  runList (render_chip env d) s.chip_subtract_dict s

/-- Embeds `QAnsysRenderer.subtract_from_ground`: for each chip with a
nonempty set of negative shapes, subtract them from its ground plane. -/
def subtract_from_ground (s : RState) : RState × List MCall :=
  (s, s.chip_subtract_dict.filterMap (fun e =>
    if e.2.isEmpty then none
    else some (MCall.subtract (e.1 ++ "_plane") e.2)))

/-- Embeds `QAnsysRenderer.metallize`: assign the perfect-E boundary to all
recorded shapes. -/
def metallize (s : RState) : RState × List MCall :=
  (s, [MCall.assign_perfect_E s.assign_perfE])

/-- Embeds `QAnsysRenderer.render_design`: reset both accumulators, then
render the tables, the chips, the ground-plane subtraction and the
metallization, in that order.  The prior accumulator state (the method's
receiver state) is ignored because of the reset. -/
def render_design (env : Env) (d : Design) (selection : List String)
    (_ : RState) : RState × List MCall :=
  let r1 := render_tables env d selection ⟨[], []⟩
  let r2 := render_chips env d r1.1
  let r3 := subtract_from_ground r2.1
  let r4 := metallize r3.1
  (r4.1, r1.2 ++ r2.2 ++ r3.2 ++ r4.2)

/-- C4: both accumulators are local to one render pass: `render_design`
reinitializes `chip_subtract_dict` and `assign_perfE` before rendering, so
its result is independent of the accumulator state left by any previous
call. -/
theorem render_design_state_independent (env : Env) (d : Design)
    (selection : List String) (s1 s2 : RState) :
    render_design env d selection s1 = render_design env d selection s2 := rfl

/-- C3: a call to `render_design` executes its phases in the fixed order
render_tables, render_chips, subtract_from_ground, metallize: its emitted
call trace is the concatenation of the four phase traces in that order
(starting from reset accumulators), the third segment consists exactly of
the ground-plane subtraction calls, and the metallization call comes last —
in particular every ground-plane subtraction occurs after every
component-rendering call of the first segment. -/
theorem render_design_phase_order (env : Env) (d : Design)
    (selection : List String) (s : RState) :
    ∃ (s1 s2 s3 s4 : RState) (t1 t2 t3 t4 : List MCall),
      render_tables env d selection ⟨[], []⟩ = (s1, t1) ∧
      render_chips env d s1 = (s2, t2) ∧
      subtract_from_ground s2 = (s3, t3) ∧
      metallize s3 = (s4, t4) ∧
      render_design env d selection s = (s4, t1 ++ t2 ++ t3 ++ t4) ∧
      (∀ c ∈ t3, ∃ chip shapes, c = MCall.subtract (chip ++ "_plane") shapes) ∧
      (∀ c ∈ t4, ∃ names, c = MCall.assign_perfect_E names) := by
  rcases h1 : render_tables env d selection ⟨[], []⟩ with ⟨s1, t1⟩
  rcases h2 : render_chips env d s1 with ⟨s2, t2⟩
  rcases h3 : subtract_from_ground s2 with ⟨s3, t3⟩
  rcases h4 : metallize s3 with ⟨s4, t4⟩
  have ht3 : t3 = s2.chip_subtract_dict.filterMap (fun e =>
      if e.2.isEmpty then none
      else some (MCall.subtract (e.1 ++ "_plane") e.2)) := by
    simp only [subtract_from_ground, Prod.mk.injEq] at h3
    exact h3.2.symm
  have ht4 : t4 = [MCall.assign_perfect_E s3.assign_perfE] := by
    simp only [metallize, Prod.mk.injEq] at h4
    exact h4.2.symm
  refine ⟨s1, s2, s3, s4, t1, t2, t3, t4, rfl, h2, h3, h4, ?_, ?_, ?_⟩
  · simp only [render_design, h1, h2, h3, h4]
  · intro c hc
    rw [ht3, List.mem_filterMap] at hc
    obtain ⟨e, _, hsome⟩ := hc
    by_cases hne : e.2.isEmpty
    · rw [if_pos hne] at hsome
      cases hsome
    · rw [if_neg hne] at hsome
      rw [Option.some_inj] at hsome
      exact ⟨e.1, e.2, hsome.symm⟩
  · intro c hc
    rw [ht4, List.mem_singleton] at hc
    exact ⟨_, hc⟩

/-- C9: a row whose geometry is neither a polygon nor a linestring is
rendered as a no-op: `render_element` issues no modeler call and leaves both
accumulators unchanged. -/
theorem render_element_other_noop (env : Env) (d : Design) (q : QGeomRow)
    (s : RState) (h : q.geometry = Geom.other) :
    render_element env d q s = (s, []) := by
  simp [render_element, h]

/-- A concrete environment (identity unit conversion, nothing is a
rectangle) used to evaluate witnesses. -/
def envW : Env where
  parse_units := fun x => x
  is_rectangle := fun _ => false
  bounds := fun _ => (0, 0, 0, 0)
  to_vec3D := fun pts z => pts.map (fun p => (p.1, p.2, z))
  sweep_pts := fun _ _ => []

/-- A concrete design (empty tables, precision 0) used to evaluate
witnesses. -/
def designW : Design where
  element_types := ["path"]
  tables := fun _ => []
  get_unique_component_ids := fun _ => ([], 1)
  get_chip_z := fun _ => 0
  get_chip_size := fun _ => ⟨0, 0, 0, 0, 0, 0, 0, 0⟩
  precision := 0

/-- A concrete row whose geometry is neither polygon nor linestring. -/
def rowOtherW : QGeomRow where
  component := 1
  name := "bus"
  geometry := Geom.other
  chip := "main"
  fillet := 0
  width := 0
  subtract := false
  helper := false

theorem render_element_other_noop_witness :
    render_element envW designW rowOtherW ⟨[], []⟩ = (⟨[], []⟩, []) :=
  render_element_other_noop envW designW rowOtherW ⟨[], []⟩ rfl

/-- C10: in `render_element_poly` and `render_element_path` (both reached
through `render_element`), a `_fillet` call occurs only when the row's
fillet radius rounded to 7 digits is strictly positive and the list of
eligible indices is nonempty; and since parse_units preserves positivity,
the radius argument of every emitted `_fillet` call is strictly positive. -/
theorem fillet_call_guarded (env : Env) (d : Design) (q : QGeomRow)
    (s : RState) (r : ℚ) (idxs : List ℕ)
    (hpu : ∀ x : ℚ, 0 < x → 0 < env.parse_units x)
    (hmem : MCall.fillet r idxs ∈ (render_element env d q s).2) :
    0 < round7 q.fillet ∧ idxs ≠ [] ∧ 0 < r := by
  have main : ∀ draws tail : List MCall,
      (∀ c ∈ draws, ∀ r0 idxs0, c ≠ MCall.fillet r0 idxs0) →
      (∀ c ∈ tail, ∀ r0 idxs0, c ≠ MCall.fillet r0 idxs0) →
      ∀ (fr0 : ℚ) (gl : List ℕ),
        MCall.fillet r idxs ∈
          draws ++ (if 0 < round7 q.fillet then
            (if gl.isEmpty then [] else [MCall.fillet fr0 gl]) else []) ++ tail →
        0 < round7 q.fillet ∧ idxs ≠ [] ∧ r = fr0 := by
    intro draws tail hd ht fr0 gl hm
    rw [List.mem_append, List.mem_append] at hm
    rcases hm with (hm | hm) | hm
    · exact absurd rfl (hd _ hm r idxs)
    · by_cases hf : 0 < round7 q.fillet
      · rw [if_pos hf] at hm
        by_cases he : gl.isEmpty
        · rw [if_pos he] at hm
          cases hm
        · rw [if_neg he] at hm
          rw [List.mem_singleton] at hm
          injection hm with h1 h2
          subst h1
          subst h2
          refine ⟨hf, ?_, rfl⟩
          intro hnil
          rw [hnil] at he
          exact he rfl
      · rw [if_neg hf] at hm
        cases hm
    · exact absurd rfl (ht _ hm r idxs)
  cases hg : q.geometry with
  | other =>
    simp [render_element, hg] at hmem
  | poly ext ints =>
    simp only [render_element, hg] at hmem
    simp only [render_element_poly] at hmem
    have := main _ _ ?_ ?_ _ _ hmem
    · exact ⟨this.1, this.2.1, by
        rw [this.2.2]
        exact hpu _ this.1⟩
    · intro c hc r0 idxs0 hEq
      subst hEq
      split at hc <;> simp at hc
    · intro c hc r0 idxs0 hEq
      subst hEq
      rw [List.mem_flatMap] at hc
      obtain ⟨x, _, hc⟩ := hc
      simp at hc
  | path coords =>
    simp only [render_element, hg] at hmem
    simp only [render_element_path] at hmem
    have := main _ _ ?_ ?_ _ _ hmem
    · exact ⟨this.1, this.2.1, by
        rw [this.2.2]
        exact hpu _ this.1⟩
    · intro c hc r0 idxs0 hEq
      subst hEq
      simp at hc
    · intro c hc r0 idxs0 hEq
      subst hEq
      split at hc <;> simp at hc

/-- A concrete path row whose rendering emits a fillet call. -/
def rowPathW : QGeomRow where
  component := 1
  name := "line"
  geometry := Geom.path [(0, 0), (1, 0), (9, 0), (10, 0)]
  chip := "main"
  fillet := 1
  width := 0
  subtract := false
  helper := false

theorem fillet_call_guarded_witness :
    0 < round7 (1 : ℚ) ∧ ([1, 2] : List ℕ) ≠ [] ∧ (0 : ℚ) < 1 :=
  fillet_call_guarded envW designW rowPathW ⟨[], []⟩ 1 [1, 2]
    (fun _ h => h) (by with_unfolding_all decide)

/-- Strict sequential execution of a list of modeler calls against an error
oracle `err`: the first failing call aborts the run with its exception, and
no exception is caught or transformed on the way out. -/
def execCalls {ε : Type} (err : MCall → Option ε) : List MCall → Except ε Unit
  | [] => Except.ok ()
  | c :: cs =>
    match err c with
    | some e => Except.error e
    | none => execCalls err cs

/-- Run a (state, trace) method result: execute its modeler calls and, when
they all succeed, return its resulting accumulator state. -/
def runOf {ε : Type} (err : MCall → Option ε) (r : RState × List MCall) :
    Except ε RState :=
  match execCalls err r.2 with
  | Except.error e => Except.error e
  | Except.ok _ => Except.ok r.1

/-- Sequential, short-circuiting iteration in the `Except` semantics. -/
def runListE {ε α : Type} (f : α → RState → Except ε RState) :
    List α → RState → Except ε RState
  | [], s => Except.ok s
  | x :: xs, s =>
    match f x s with
    | Except.error e => Except.error e
    | Except.ok s1 => runListE f xs s1

/-- `render_element_poly` in the `Except` semantics: issue its calls in
order and fail on the first failing one. -/
def render_element_polyRun {ε : Type} (err : MCall → Option ε) (env : Env)
    (d : Design) (q : QGeomRow) (s : RState) : Except ε RState :=
  runOf err (render_element_poly env d q s)

/-- `render_element_path` in the `Except` semantics. -/
def render_element_pathRun {ε : Type} (err : MCall → Option ε) (env : Env)
    (d : Design) (q : QGeomRow) (s : RState) : Except ε RState :=
  runOf err (render_element_path env d q s)

/-- `render_element` in the `Except` semantics: dispatch exactly as the
source does, without any exception handling around the callees. -/
def render_elementRun {ε : Type} (err : MCall → Option ε) (env : Env)
    (d : Design) (q : QGeomRow) (s : RState) : Except ε RState :=
  match q.geometry with
  | Geom.poly _ _ => render_element_polyRun err env d q s
  | Geom.path _ => render_element_pathRun err env d q s
  | Geom.other => Except.ok s

/-- `render_components` in the `Except` semantics: row loop with no
exception handling around `render_element`. -/
def render_componentsRun {ε : Type} (err : MCall → Option ε) (env : Env)
    (d : Design) (table_type : String) (selection : List String)
    (s : RState) : Except ε RState :=
  runListE (render_elementRun err env d) (rowsOf d table_type selection) s

/-- `render_tables` in the `Except` semantics: table-type loop with no
exception handling around `render_components`. -/
def render_tablesRun {ε : Type} (err : MCall → Option ε) (env : Env)
    (d : Design) (selection : List String) (s : RState) : Except ε RState :=
  runListE (fun tt s => render_componentsRun err env d tt selection s)
    d.element_types s

/-- One `render_chips` iteration in the `Except` semantics. -/
def render_chipRun {ε : Type} (err : MCall → Option ε) (env : Env)
    (d : Design) (entry : String × List String) (s : RState) :
    Except ε RState :=
  runOf err (render_chip env d entry s)

/-- `render_chips` in the `Except` semantics: chip loop with no exception
handling around the per-chip draws. -/
def render_chipsRun {ε : Type} (err : MCall → Option ε) (env : Env)
    (d : Design) (s : RState) : Except ε RState :=
  runListE (render_chipRun err env d) s.chip_subtract_dict s

/-- `subtract_from_ground` in the `Except` semantics. -/
def subtract_from_groundRun {ε : Type} (err : MCall → Option ε) (s : RState) :
    Except ε RState :=
  runOf err (subtract_from_ground s)

/-- `metallize` in the `Except` semantics. -/
def metallizeRun {ε : Type} (err : MCall → Option ε) (s : RState) :
    Except ε RState :=
  runOf err (metallize s)

/-- `render_design` in the `Except` semantics: the four phases in sequence,
each one's exception passed through unchanged (no handler at any point). -/
def render_designRun {ε : Type} (err : MCall → Option ε) (env : Env)
    (d : Design) (selection : List String) (_ : RState) : Except ε RState :=
  match render_tablesRun err env d selection ⟨[], []⟩ with
  | Except.error e => Except.error e
  | Except.ok s1 =>
    match render_chipsRun err env d s1 with
    | Except.error e => Except.error e
    | Except.ok s2 =>
      match subtract_from_groundRun err s2 with
      | Except.error e => Except.error e
      | Except.ok s3 => metallizeRun err s3

theorem execCalls_append {ε : Type} (err : MCall → Option ε)
    (a b : List MCall) :
    execCalls err (a ++ b) =
      match execCalls err a with
      | Except.error e => Except.error e
      | Except.ok _ => execCalls err b := by
  induction a with
  | nil => simp [execCalls]
  | cons c cs ih =>
    simp only [List.cons_append, execCalls]
    cases err c
    · simp [ih]
    · simp

theorem runListE_eq_runOf {ε α : Type} (err : MCall → Option ε)
    (f : α → RState → RState × List MCall)
    (g : α → RState → Except ε RState)
    (hg : ∀ x s, g x s = runOf err (f x s)) :
    ∀ (xs : List α) (s : RState), runListE g xs s = runOf err (runList f xs s) := by
  intro xs
  induction xs with
  | nil =>
    intro s
    simp [runListE, runList, runOf, execCalls]
  | cons x xs ih =>
    intro s
    simp only [runListE, runList, hg x s, runOf, execCalls_append]
    cases hex : execCalls err (f x s).2
    · simp
    · simp only []
      rw [ih ((f x s).1)]
      simp [runOf]

theorem render_elementRun_eq {ε : Type} (err : MCall → Option ε) (env : Env)
    (d : Design) (q : QGeomRow) (s : RState) :
    render_elementRun err env d q s = runOf err (render_element env d q s) := by
  cases hg : q.geometry with
  | poly ext ints =>
    simp [render_elementRun, render_element, hg, render_element_polyRun]
  | path coords =>
    simp [render_elementRun, render_element, hg, render_element_pathRun]
  | other =>
    simp [render_elementRun, render_element, hg, runOf, execCalls]

theorem render_componentsRun_eq {ε : Type} (err : MCall → Option ε) (env : Env)
    (d : Design) (table_type : String) (selection : List String) (s : RState) :
    render_componentsRun err env d table_type selection s =
      runOf err (render_components env d table_type selection s) :=
  runListE_eq_runOf err (render_element env d) (render_elementRun err env d)
    (fun q s => render_elementRun_eq err env d q s) _ s

theorem render_tablesRun_eq {ε : Type} (err : MCall → Option ε) (env : Env)
    (d : Design) (selection : List String) (s : RState) :
    render_tablesRun err env d selection s =
      runOf err (render_tables env d selection s) :=
  runListE_eq_runOf err (fun tt s => render_components env d tt selection s)
    (fun tt s => render_componentsRun err env d tt selection s)
    (fun tt s => render_componentsRun_eq err env d tt selection s) _ s

theorem render_chipsRun_eq {ε : Type} (err : MCall → Option ε) (env : Env)
    (d : Design) (s : RState) :
    render_chipsRun err env d s = runOf err (render_chips env d s) :=
  runListE_eq_runOf err (render_chip env d) (render_chipRun err env d)
    (fun _ _ => rfl) _ s

theorem render_designRun_eq {ε : Type} (err : MCall → Option ε) (env : Env)
    (d : Design) (selection : List String) (s : RState) :
    render_designRun err env d selection s =
      runOf err (render_design env d selection s) := by
  simp only [render_designRun, render_tablesRun_eq, render_chipsRun_eq]
  simp only [render_design, runOf, List.append_assoc, execCalls_append]
  cases hex1 : execCalls err (render_tables env d selection ⟨[], []⟩).2
  · simp
  · simp only []
    cases hex2 : execCalls err
        (render_chips env d (render_tables env d selection ⟨[], []⟩).1).2
    · simp [subtract_from_groundRun, runOf]
    · simp only []
      cases hex3 : execCalls err (subtract_from_ground
          (render_chips env d (render_tables env d selection ⟨[], []⟩).1).1).2
      · simp [subtract_from_groundRun, runOf, hex3]
      · simp [subtract_from_groundRun, metallizeRun, runOf, hex3]

/-- C7: no method of the renderer catches or transforms exceptions.  In the
`Except` semantics each method equals the strict sequential execution of its
own emitted modeler calls (first failure aborting with that exact
exception), and the composed `render_design` run fails with exception `e`
exactly when executing its full call trace fails with `e` — i.e. any
exception raised by a modeler call inside render_tables, render_components,
render_element, render_element_poly, render_element_path, render_chips,
subtract_from_ground or metallize propagates unchanged to the caller. -/
theorem qansys_exceptions_propagate {ε : Type} (err : MCall → Option ε)
    (env : Env) (d : Design) (selection : List String) (s : RState)
    (q : QGeomRow) (table_type : String) (entry : String × List String) :
    render_designRun err env d selection s =
      runOf err (render_design env d selection s) ∧
    render_tablesRun err env d selection s =
      runOf err (render_tables env d selection s) ∧
    render_componentsRun err env d table_type selection s =
      runOf err (render_components env d table_type selection s) ∧
    render_elementRun err env d q s =
      runOf err (render_element env d q s) ∧
    render_element_polyRun err env d q s =
      runOf err (render_element_poly env d q s) ∧
    render_element_pathRun err env d q s =
      runOf err (render_element_path env d q s) ∧
    render_chipsRun err env d s = runOf err (render_chips env d s) ∧
    render_chipRun err env d entry s = runOf err (render_chip env d entry s) ∧
    subtract_from_groundRun err s = runOf err (subtract_from_ground s) ∧
    metallizeRun err s = runOf err (metallize s) ∧
    (∀ e : ε, render_designRun err env d selection s = Except.error e ↔
      execCalls err (render_design env d selection s).2 = Except.error e) := by
  refine ⟨render_designRun_eq err env d selection s,
    render_tablesRun_eq err env d selection s,
    render_componentsRun_eq err env d table_type selection s,
    render_elementRun_eq err env d q s, rfl, rfl,
    render_chipsRun_eq err env d s, rfl, rfl, rfl, ?_⟩
  intro e
  rw [render_designRun_eq err env d selection s]
  unfold runOf
  cases hex : execCalls err (render_design env d selection s).2
  · simp [hex]
  · simp [hex]
